import Mathlib

/-!
# Verification of the Mapetite route-corridor detour engine

Shallow embedding of the core logic of `src/App.js` (the route-corridor
detour engine): geo helpers, the route sampler, the candidate
aggregator/deduper, the corridor filter, the spatial binner / candidate
selector, the detour scorer and the result filter / view model.

Conventions of the embedding:
* JavaScript numbers are modelled as `ℚ` (coordinates, kilometre
  distances) and `ℤ` (durations in seconds); `Infinity` as `⊤` in
  `WithTop ℚ`.
* The transcendental kernels (`haversineDistanceKm` and the per-segment
  equirectangular projection) are abstracted as function parameters: the
  properties verified here are structural and hold for every kernel, which
  is exactly how the source composes them.
* JavaScript truthiness tests on coordinates (`!lat || !lng`) are modelled
  by `jsTruthy`: `undefined` ↦ `none`, and `0` is falsy.
* `Array.prototype.sort` with a numeric comparator is a stable sort; it is
  modelled by `List.insertionSort` (also stable) under the total preorder
  induced by the comparator.  For a total preorder all stable sorts agree,
  so the model is exact.
* React state updates (`setDetourOptions` etc.) are modelled as pure
  functions from the previous state (and the callback's captured locals)
  to the next state.
-/

namespace Mapetite

/-- A latitude/longitude pair (decoded polyline vertex, sample point). -/

structure Pt where
  lat : ℚ
  lng : ℚ
deriving DecidableEq, Repr, Inhabited

/-- A point of interest as delivered by the places proxy.  `latOpt`/`lngOpt`
model `place.geometry?.location?.lat/.lng` (absent geometry ↦ `none`);
`types` models `place.types` (`none` when the field is not an array);
`priceLevel` models the optional `place.price_level`. -/

structure Place where
  pid : String
  latOpt : Option ℚ
  lngOpt : Option ℚ
  name : String
  types : Option (List String)
  priceLevel : Option ℤ
deriving DecidableEq, Repr, Inhabited

/-- One leg of a directions route; `durationSec` models `leg.duration.value`. -/

structure Leg where
  durationSec : ℤ
deriving DecidableEq, Repr, Inhabited

/-- A directions route: the sequence of legs (the only part the core reads
besides the encoded polyline, which plays no role in the claims below). -/

structure Route where
  legs : List Leg
deriving DecidableEq, Repr, Inhabited

/-- An entry of the accumulated result set
(`{ place, totalTime, addedTime, route }` as pushed by `fetchOption` and
`loadMorePlaces`). -/

structure DetourOption where
  place : Place
  totalTime : ℤ
  addedTime : ℤ
  route : Route
deriving DecidableEq, Repr, Inhabited

/-- JavaScript truthiness of an optional numeric field: `undefined` and `0`
are falsy (`!lat` in the source). -/

def jsTruthy : Option ℚ → Bool
  | none => false
  | some v => decide (v ≠ 0)

/-- Sum of all leg durations of a route:
`route.legs.reduce((sum, leg) => sum + leg.duration.value, 0)`. -/

def sumLegDurations (r : Route) : ℤ :=
  r.legs.foldl (fun sum leg => sum + leg.durationSec) 0

/-- Baseline (direct) route duration:
`(mainRoute?.legs || []).reduce((sum, l) => sum + (l.duration?.value || 0), 0)`. -/

def baseRouteTime (mainRoute : Route) : ℤ :=
  sumLegDurations mainRoute

/-- The sort key order used everywhere on result lists:
`(a, b) => a.addedTime - b.addedTime || a.totalTime - b.totalTime`, i.e.
ascending `addedTime`, ties broken by ascending `totalTime`. -/

def detourLE (a b : DetourOption) : Prop :=
  a.addedTime < b.addedTime ∨ (a.addedTime = b.addedTime ∧ a.totalTime ≤ b.totalTime)

instance : DecidableRel detourLE := fun a b => by
  unfold detourLE; infer_instance

instance : IsTotal DetourOption detourLE := by
  constructor
  intro a b
  rcases lt_trichotomy a.addedTime b.addedTime with h | h | h
  · exact Or.inl (Or.inl h)
  · rcases le_total a.totalTime b.totalTime with h2 | h2
    · exact Or.inl (Or.inr ⟨h, h2⟩)
    · exact Or.inr (Or.inr ⟨h.symm, h2⟩)
  · exact Or.inr (Or.inl h)

instance : IsTrans DetourOption detourLE := by
  constructor
  intro a b c hab hbc
  rcases hab with h1 | ⟨e1, t1⟩
  · rcases hbc with h2 | ⟨e2, _⟩
    · exact Or.inl (h1.trans h2)
    · exact Or.inl (e2 ▸ h1)
  · rcases hbc with h2 | ⟨e2, t2⟩
    · exact Or.inl (e1 ▸ h2)
    · exact Or.inr ⟨e1.trans e2, t1.trans t2⟩

/-- `list.sort((a, b) => a.addedTime - b.addedTime || a.totalTime - b.totalTime)`:
the stable ascending sort by `(addedTimeSec, totalTimeSec)`. -/

def sortByKey (l : List DetourOption) : List DetourOption :=
  l.insertionSort detourLE

/-! ## Detour scorer (`fetchOption`, lines 982-1009 of the current App) -/

/-- The pure core of one `fetchOption` call: take the first returned route
(`res.data.routes?.[0]`; `none` when there is no route, in which case the
candidate is skipped), sum the leg durations, and clamp the added time at
zero: `addedTime = Math.max(0, totalTime - (baseTimeSec || 0))`
(`x || 0 = x` on integers, since `0 || 0` is `0`). -/

def fetchOptionResult (place : Place) (routes : List Route) (baseTimeSec : ℤ) :
    Option DetourOption :=
  match routes.head? with
  | none => none
  | some route =>
      let totalTime := sumLegDurations route
      let addedTime := max 0 (totalTime - baseTimeSec)
      some { place := place, totalTime := totalTime, addedTime := addedTime, route := route }

/-! ## Result filter / view model: price filter (`inPrice`, lines 491-500,
and `withinPrice` inside `cuisineCounts`, lines 577-585) -/

/-- `inPrice` from `visibleOptions`: a result with no numeric `price_level`
passes only when both bounds are unset (`uiMinPrice === '' && uiMaxPrice === ''`);
otherwise `minOk = uiMinPrice === '' || lvl >= Number(uiMinPrice)` and
symmetrically for the max bound.  The empty-string bound is modelled as
`none`. -/

def inPrice (uiMinPrice uiMaxPrice : Option ℤ) (p : DetourOption) : Bool :=
  match p.place.priceLevel with
  | none => decide (uiMinPrice = none) && decide (uiMaxPrice = none)
  | some lvl =>
      let minOk := match uiMinPrice with
        | none => true
        | some lo => decide (lo ≤ lvl)
      let maxOk := match uiMaxPrice with
        | none => true
        | some hi => decide (lvl ≤ hi)
      minOk && maxOk

/-- `withinPrice` from `cuisineCounts`: textually the same filter as
`inPrice`. -/

def withinPrice (uiMinPrice uiMaxPrice : Option ℤ) (p : DetourOption) : Bool :=
  match p.place.priceLevel with
  | none => decide (uiMinPrice = none) && decide (uiMaxPrice = none)
  | some lvl =>
      let minOk := match uiMinPrice with
        | none => true
        | some lo => decide (lo ≤ lvl)
      let maxOk := match uiMaxPrice with
        | none => true
        | some hi => decide (lvl ≤ hi)
      minOk && maxOk

/-! ## Result filter / view model: keyword filter and ordering
(`visibleOptions`, lines 482-506) -/

/-- JavaScript `s.includes(kw)`: `kw` occurs as a contiguous substring. -/

def jsIncludes (s kw : String) : Bool :=
  decide (kw.toList <:+: s.toList)

/-- `matchesCuisine` from `visibleOptions`: the empty keyword admits
everything; otherwise case-insensitive substring match against the POI name
or the space-joined `types` tags (non-array `types` never matches). -/

def matchesCuisine (uiCuisine : String) (p : DetourOption) : Bool :=
  if uiCuisine = "" then true
  else
    let kw := uiCuisine.toLower
    jsIncludes p.place.name.toLower kw ||
      (match p.place.types with
        | none => false
        | some ts => jsIncludes (String.intercalate " " ts).toLower kw)

/-- `visibleOptions`: filter the accumulated result set by the popup
cuisine keyword and price bounds, copy, and sort by the shared key
`(addedTime, totalTime)`. -/

def visibleOptions (uiCuisine : String) (uiMinPrice uiMaxPrice : Option ℤ)
    (detourOptions : List DetourOption) : List DetourOption :=
  sortByKey ((detourOptions.filter (matchesCuisine uiCuisine)).filter
    (inPrice uiMinPrice uiMaxPrice))

/-- The streaming state update performed by `fetchOption` after pushing a
freshly scored result into its pass-local `options` array
(lines 992-997): `setDetourOptions(prev => { const merged = [...options];
merged.sort((a, b) => a.addedTime - b.addedTime || a.totalTime - b.totalTime);
return merged; })`.  The previous state is ignored: the published list is the
pass-local accumulator, re-sorted. -/

def streamMerge (options : List DetourOption) (_prev : List DetourOption) :
    List DetourOption :=
  sortByKey options

/-- The reset performed when a new destination search starts
(`setDetourOptions([])`, line 882). -/

def resetDetourOptions : List DetourOption := []

/-! ## C1: cancellation of a stale scoring pass

The spec requires a generation/epoch counter so that in-flight batch
responses of a stale pass are discarded rather than merged.  The source has
no such counter: the `place_changed` handler (lines 824-845) starts a fresh
async pass that resets `detourOptions` to `[]`, but `fetchOption`
completions of the *previous* pass still run `setDetourOptions(prev =>
sorted copy of the stale pass-local options)` (lines 992-997), which ignores
`prev` entirely.  So after the epoch-2 reset, a single stale epoch-1
completion repopulates the result set with epoch-1 results. -/

/-- A result produced under epoch 1 (a scored candidate of the old
destination). -/

def epoch1Result : DetourOption :=
  { place := { pid := "stale-poi", latOpt := some 33, lngOpt := some (-84),
               name := "Epoch One Diner", types := some ["restaurant"],
               priceLevel := some 2 },
    totalTime := 1500, addedTime := 300, route := ⟨[⟨1500⟩]⟩ }

/-! ## Corridor filter and candidate selector (current App)

`onRouteFoodPlaces` (lines 946-952) and the corridor filter inside
`loadMorePlaces` (lines 636-642) filter by `!lat || !lng` truthiness and
distance-to-polyline; the candidate selector (lines 961-973) annotates each
place with its perpendicular offset, sorts ascending by offset and takes the
first `MAX_DETOURS = 30`.  The geometric kernels are parameters:
`dist lat lng` stands for `distanceFromPointToPolylineKm(lat, lng, mainPath)`
and `proj lat lng` for `computeAlongRouteDistanceKm(lat, lng, mainPath)`
(returning `{alongKm, offsetKm}`). -/

/-- The coordinate guard shared by the corridor filter, the candidate
selector and `loadMorePlaces`: `const lat = place.geometry?.location?.lat;
const lng = place.geometry?.location?.lng; if (!lat || !lng) ...` — the
coordinates survive only when both are present and truthy (non-zero). -/

def coordGuard (p : Place) : Option (ℚ × ℚ) :=
  match p.latOpt, p.lngOpt with
  | some lat, some lng => if lat = 0 ∨ lng = 0 then none else some (lat, lng)
  | _, _ => none

/-- The corridor filter: drop places with falsy coordinates, keep those whose
distance to the route polyline is at most the corridor width. -/

def corridorFilter (dist : ℚ → ℚ → WithTop ℚ) (corridorKm : ℚ)
    (places : List Place) : List Place :=
  places.filter fun place =>
    match coordGuard place with
    | some (lat, lng) => decide (dist lat lng ≤ (corridorKm : WithTop ℚ))
    | none => false

/-- Order on `(place, offsetKm)` pairs: `(a, b) => a.off - b.off`. -/

def offLE (a b : Place × ℚ) : Prop := a.2 ≤ b.2

instance : DecidableRel offLE := fun a b => by
  unfold offLE; infer_instance

instance : IsTotal (Place × ℚ) offLE :=
  ⟨fun a b => le_total a.2 b.2⟩

instance : IsTrans (Place × ℚ) offLE :=
  ⟨fun _ _ _ h1 h2 => le_trans h1 h2⟩

/-- The candidate selector of the current App: map each corridor place to
`{p, off: offsetKm}` (dropping falsy coordinates), sort ascending by offset,
take the first 30, and project back to the places. -/

def selectCandidates (proj : ℚ → ℚ → ℚ × ℚ) (onRoute : List Place) : List Place :=
  ((((onRoute.filterMap fun p =>
        match coordGuard p with
        | some (lat, lng) => some (p, (proj lat lng).2)
        | none => none)).insertionSort offLE).take 30).map Prod.fst

/-! ## C2: shape of the accumulated result set

The scorer accumulates results with `options.push(...)` (line 991) and
`loadMorePlaces` merges with `[...detourOptions, ...newOptions]` (line 685):
both are list appends, never keyed replacement.  Duplicates are avoided only
because `loadMorePlaces` filters to places whose `place_id` is not already
present (lines 620-621). -/

/-- `options.push({ place, totalTime, addedTime, route })`: plain append. -/

def pushOption (options : List DetourOption) (o : DetourOption) : List DetourOption :=
  options ++ [o]

/-- `new Set(detourOptions.map(opt => opt.place.place_id))`. -/

def processedPlaceIds (detourOptions : List DetourOption) : List String :=
  detourOptions.map fun o => o.place.pid

/-- `allPlaces.filter(place => !processedPlaceIds.has(place.place_id))`. -/

def unprocessedPlaces (allPlaces : List Place) (detourOptions : List DetourOption) :
    List Place :=
  allPlaces.filter fun p => decide (p.pid ∉ processedPlaceIds detourOptions)

/-- The offset-sorted unprocessed candidates of `loadMorePlaces`
(lines 647-657): annotate with `offsetKm`, drop falsy coordinates, sort
ascending by offset, project back to places. -/

def sortedUnprocessed (proj : ℚ → ℚ → ℚ × ℚ) (inCorridor : List Place) : List Place :=
  (((inCorridor.filterMap fun p =>
      match coordGuard p with
      | some (lat, lng) => some (p, (proj lat lng).2)
      | none => none)).insertionSort offLE).map Prod.fst

/-- Scoring one place inside `loadMorePlaces` (lines 670-678): take the
first returned route (none, or an upstream error, skips the place), sum the
leg durations, clamp the added time at zero.  `routesOf` stands for the
routes returned by the directions proxy for the detour through that place. -/

def loadMoreScore (routesOf : Place → List Route) (baseRouteTimeSec : ℤ)
    (p : Place) : Option DetourOption :=
  match (routesOf p).head? with
  | none => none
  | some route =>
      some { place := p, totalTime := sumLegDurations route,
             addedTime := max 0 (sumLegDurations route - baseRouteTimeSec),
             route := route }

/-- `[...detourOptions, ...newOptions].sort((a, b) => a.addedTime - b.addedTime
|| a.totalTime - b.totalTime)` (lines 685-686). -/

def loadMoreMerge (detourOptions newOptions : List DetourOption) : List DetourOption :=
  sortByKey (detourOptions ++ newOptions)

/-- The whole `loadMorePlaces` result-set transformation: filter out already
processed places, keep those in the corridor, sort by offset, score the
first 10, and merge-and-sort into the accumulated result set. -/

def loadMorePipeline (dist : ℚ → ℚ → WithTop ℚ) (corridorKm : ℚ)
    (proj : ℚ → ℚ → ℚ × ℚ) (routesOf : Place → List Route)
    (baseRouteTimeSec : ℤ) (allPlaces : List Place)
    (detourOptions : List DetourOption) : List DetourOption :=
  let unproc := unprocessedPlaces allPlaces detourOptions
  let inCorr := corridorFilter dist corridorKm unproc
  let sorted := sortedUnprocessed proj inCorr
  let newOptions := (sorted.take 10).filterMap (loadMoreScore routesOf baseRouteTimeSec)
  loadMoreMerge detourOptions newOptions

/-- A result for POI id `dup-poi` with one scored time. -/

def dupScore1 : DetourOption :=
  { place := { pid := "dup-poi", latOpt := some 34, lngOpt := some (-84),
               name := "Twice Scored", types := none, priceLevel := none },
    totalTime := 1400, addedTime := 200, route := ⟨[⟨1400⟩]⟩ }

/-- A second result for the same POI id `dup-poi` with a different time. -/

def dupScore2 : DetourOption :=
  { place := { pid := "dup-poi", latOpt := some 34, lngOpt := some (-84),
               name := "Twice Scored", types := none, priceLevel := none },
    totalTime := 1600, addedTime := 400, route := ⟨[⟨1600⟩]⟩ }

/-! ## Candidate aggregator (`dedupeMap`, lines 903-941)

Per sample point the places proxy returns a list of POIs; the aggregator
inserts each into `dedupeMap` only when its `place_id` is not yet present
(`if (!dedupeMap.has(p.place_id)) dedupeMap.set(p.place_id, p)`), and
`sampledPlaces = Array.from(dedupeMap.values())`.  A JavaScript `Map` keeps
insertion order, so it is modelled as an association list appended at the
tail. -/

/-- One insertion into `dedupeMap`: first-seen-wins by `place_id`. -/

def dedupeStep (m : List (String × Place)) (p : Place) : List (String × Place) :=
  if p.pid ∈ m.map Prod.fst then m else m ++ [(p.pid, p)]

/-- The nested fetch loop: for each sample's response list, insert every
returned place. -/

def aggregateResponses (responses : List (List Place)) : List (String × Place) :=
  responses.foldl (fun m results => results.foldl dedupeStep m) []

/-- `Array.from(dedupeMap.values())`. -/

def sampledPlacesOf (responses : List (List Place)) : List Place :=
  (aggregateResponses responses).map Prod.snd

/-- First discovery of POI id `x`. -/

def firstSeenX : Place := ⟨"x", some 1, some 2, "First X", none, none⟩

/-- A later record with the same POI id `x` but different attributes. -/

def secondSeenX : Place := ⟨"x", some 3, some 4, "Second X", none, some 1⟩

/-- A POI with a different id. -/

def placeY : Place := ⟨"y", some 5, some 6, "Y", none, none⟩

/-! ## Geo primitive: point-to-polyline distance
(`distanceFromPointToPolylineKm`, lines 713-747)

The function walks every consecutive vertex pair, computes the per-segment
point-to-segment offset (equirectangular projection + haversine — the
transcendental kernel `segKm p segStart segEnd`, abstracted here) and keeps
the running minimum, starting from `Infinity` (`⊤`). -/

/-- `distanceFromPointToPolylineKm`: `Infinity` for paths with fewer than 2
points, otherwise the minimum per-segment offset over all consecutive
segment pairs. -/

def distanceFromPointToPolylineKm (segKm : Pt → Pt → Pt → ℚ) (p : Pt)
    (path : List Pt) : WithTop ℚ :=
  if path.length < 2 then ⊤
  else ((path.zip path.tail).map
    (fun ab => ((segKm p ab.1 ab.2 : ℚ) : WithTop ℚ))).foldl min ⊤

/-! ## Route sampler (`sampledCoords`, lines 884-899)

The loop `for (let i = 0; i < mainPath.length - 1; i++)` visits the
consecutive vertex pairs `(mainPath[i], mainPath[i+1])` in order — modelled
as `path.zip path.tail` with the running index `i` threaded through — adds
each segment length to the accumulator, and emits the pair's leading vertex
`mainPath[i]` (resetting the accumulator) whenever the accumulated length
reaches the spacing or at the very first vertex (`i === 0`); afterwards the
final vertex is always pushed.  `hav a b` abstracts
`haversineDistanceKm(a, b)`. -/

/-- The sampling loop of the source, with the JavaScript loop index. -/

def sampleGo (hav : Pt → Pt → ℚ) (spacing : ℚ) :
    ℕ → ℚ → List (Pt × Pt) → List Pt
  | _, _, [] => []
  | i, accumulatedKm, (a, b) :: rest =>
      let acc2 := accumulatedKm + hav a b
      if spacing ≤ acc2 ∨ i = 0 then a :: sampleGo hav spacing (i + 1) 0 rest
      else sampleGo hav spacing (i + 1) acc2 rest

/-- `sampledCoords` plus the unconditional
`sampledCoords.push(mainPath[mainPath.length - 1])` (the source only ever
runs this on decoded polylines with at least one vertex). -/

def sampledCoords (hav : Pt → Pt → ℚ) (spacing : ℚ) (path : List Pt) : List Pt :=
  sampleGo hav spacing 0 0 (path.zip path.tail) ++ path.getLast?.toList

/-- The sampler as the spec words it: walk consecutive vertex pairs with a
first-vertex flag instead of a loop index, accumulate segment lengths, emit
the run's vertex and reset the accumulator when the accumulated length
reaches or exceeds the spacing (or at the very first vertex). -/

def specWalk (hav : Pt → Pt → ℚ) (spacing : ℚ) :
    Bool → ℚ → List (Pt × Pt) → List Pt
  | _, _, [] => []
  | isFirstVertex, acc, (a, b) :: rest =>
      let acc2 := acc + hav a b
      if spacing ≤ acc2 ∨ isFirstVertex then a :: specWalk hav spacing false 0 rest
      else specWalk hav spacing false acc2 rest

/-- The spec's sampler: the walk above, then always append the final vertex. -/

def specRouteSamples (hav : Pt → Pt → ℚ) (spacing : ℚ) (path : List Pt) : List Pt :=
  specWalk hav spacing true 0 (path.zip path.tail) ++ path.getLast?.toList

/-! ## Spatial binner / candidate selector (first App version, lines 250-286)

`binCount = MAX_DETOURS = 30`; `binSizeKm = Math.max(0.001, totalKm /
binCount)`; each corridor place with truthy coordinates is projected
(`computeAlongRouteDistanceKm`, abstracted as `proj lat lng = (alongKm,
offsetKm)`) and assigned to bin `Math.min(binCount - 1, Math.max(0,
Math.floor(alongKm / binSizeKm)))`; a bin keeps the first occupant until one
with a strictly smaller offset arrives; the candidates are the non-empty
bins' places, defensively trimmed to 30 by ascending offset.  The `bins`
array of nullable cells is modelled as `ℕ → Option Cand`. -/

/-- A bin occupant `{ place, alongKm, offsetKm }`. -/

structure Cand where
  place : Place
  alongKm : ℚ
  offsetKm : ℚ
deriving DecidableEq, Repr

/-- `binSizeKm = Math.max(0.001, totalKm / binCount)` with `binCount = 30`. -/

def binSizeKm (totalKm : ℚ) : ℚ :=
  max (1 / 1000) (totalKm / 30)

/-- `Math.min(binCount - 1, Math.max(0, Math.floor(alongKm / binSizeKm)))`. -/

def jsBinIdx (alongKm bs : ℚ) : ℕ :=
  (min (29 : ℤ) (max 0 ⌊alongKm / bs⌋)).toNat

/-- The occupant produced for a place from its projection. -/

def mkCand (proj : ℚ → ℚ → ℚ × ℚ) (p : Place) (lat lng : ℚ) : Cand :=
  ⟨p, (proj lat lng).1, (proj lat lng).2⟩

/-- The bin update for a place whose coordinates passed the guard: occupy the
bin when empty or when the new offset is strictly smaller than the current
occupant's (`if (!current || offsetKm < current.offsetKm)`). -/

def binApply (proj : ℚ → ℚ → ℚ × ℚ) (bs : ℚ) (bins : ℕ → Option Cand)
    (place : Place) (lat lng : ℚ) : ℕ → Option Cand :=
  match bins (jsBinIdx (proj lat lng).1 bs) with
  | none =>
      Function.update bins (jsBinIdx (proj lat lng).1 bs)
        (some (mkCand proj place lat lng))
  | some current =>
      if (proj lat lng).2 < current.offsetKm then
        Function.update bins (jsBinIdx (proj lat lng).1 bs)
          (some (mkCand proj place lat lng))
      else bins

/-- One iteration of the binning loop: skip falsy coordinates, otherwise
apply the bin update. -/

def binStep (proj : ℚ → ℚ → ℚ × ℚ) (bs : ℚ) (bins : ℕ → Option Cand)
    (place : Place) : ℕ → Option Cand :=
  match coordGuard place with
  | none => bins
  | some (lat, lng) => binApply proj bs bins place lat lng

/-- The filled bins after the whole loop, starting from
`new Array(binCount).fill(null)`. -/

def binsFor (proj : ℚ → ℚ → ℚ × ℚ) (bs : ℚ) (places : List Place) :
    ℕ → Option Cand :=
  places.foldl (binStep proj bs) (fun _ => none)

/-- `bins.filter(Boolean).map(b => b.place)`. -/

def binCandidates (proj : ℚ → ℚ → ℚ × ℚ) (bs : ℚ) (places : List Place) :
    List Place :=
  ((List.range 30).filterMap (binsFor proj bs places)).map Cand.place

/-- The defensive trim (lines 277-286): only when more than 30 candidates
remain, re-annotate with offsets, sort ascending by offset and keep the
first 30.  (The `none` branch of the guard is unreachable here — every
binned place passed the guard — and yields a junk offset.) -/

def trimCandidates (proj : ℚ → ℚ → ℚ × ℚ) (cands : List Place) : List Place :=
  if 30 < cands.length then
    (((cands.map fun p =>
        (p, match coordGuard p with
            | some (lat, lng) => (proj lat lng).2
            | none => 0)).insertionSort offLE).take 30).map Prod.fst
  else cands

/-- The candidate list the first App version scores. -/

def candidatesFirstApp (proj : ℚ → ℚ → ℚ × ℚ) (bs : ℚ)
    (places : List Place) : List Place :=
  trimCandidates proj (binCandidates proj bs places)

/-- A projection kernel for concrete checks: along-route = latitude,
offset = longitude. -/

def projW (lat lng : ℚ) : ℚ × ℚ := (lat, lng)

/-- A concrete corridor POI at latitude 2, longitude 5. -/

def placeA : Place := ⟨"a", some 2, some 5, "A", none, none⟩

/-- The occupant `placeA` produces under `projW`. -/

def candA : Cand := ⟨placeA, 2, 5⟩

/-! ## Theorems: helper lemmas, then one theorem per claim with its
witness or counterexample -/

/-- C3: for every scored candidate, `addedTimeSec = max(0, totalTimeSec −
baselineTimeSec)` where `totalTimeSec` is the sum of all leg durations of the
first returned detour route and the baseline is the direct route's duration;
in particular `addedTimeSec` is never negative. -/
theorem c3_addedTime_clamped (place : Place) (routes : List Route)
    (mainRoute : Route) (opt : DetourOption)
    (h : fetchOptionResult place routes (baseRouteTime mainRoute) = some opt) :
    opt.addedTime = max 0 (opt.totalTime - baseRouteTime mainRoute) ∧
      0 ≤ opt.addedTime ∧
      (∃ route, routes.head? = some route ∧ opt.totalTime = sumLegDurations route) := by
  unfold fetchOptionResult at h
  cases hh : routes.head? with
  | none => rw [hh] at h; exact absurd h (by simp)
  | some route =>
      rw [hh] at h
      simp only [Option.some.injEq] at h
      subst h
      refine ⟨rfl, le_max_left _ _, route, rfl, rfl⟩

/-- Witness for C3 at a concrete input: a detour route with legs of 700 s and
500 s against a 1300 s baseline gives `totalTime = 1200`, `addedTime = 0`. -/
theorem c3_addedTime_clamped_witness :
    (fetchOptionResult default [⟨[⟨700⟩, ⟨500⟩]⟩] (baseRouteTime ⟨[⟨1300⟩]⟩) =
        some ⟨default, 1200, 0, ⟨[⟨700⟩, ⟨500⟩]⟩⟩) ∧
      ((⟨default, 1200, 0, ⟨[⟨700⟩, ⟨500⟩]⟩⟩ : DetourOption).addedTime =
          max 0 ((1200 : ℤ) - baseRouteTime ⟨[⟨1300⟩]⟩) ∧
        (0 : ℤ) ≤ (0 : ℤ) ∧
        (∃ route, ([⟨[⟨700⟩, ⟨500⟩]⟩] : List Route).head? = some route ∧
          (1200 : ℤ) = sumLegDurations route)) := by
  constructor
  · rfl
  · exact c3_addedTime_clamped default [⟨[⟨700⟩, ⟨500⟩]⟩] ⟨[⟨1300⟩]⟩ _ rfl

/-- C6: a result without a numeric price level passes the price filter iff
both bounds are unset (so setting either bound excludes it), while a result
with numeric level `lvl` passes iff `lvl` lies within the inclusive set
bounds; and the `cuisineCounts` copy of the filter agrees with `inPrice`. -/
theorem c6_price_filter (uiMinPrice uiMaxPrice : Option ℤ) (p : DetourOption) :
    (p.place.priceLevel = none →
      (inPrice uiMinPrice uiMaxPrice p = true ↔ uiMinPrice = none ∧ uiMaxPrice = none)) ∧
      (∀ lvl, p.place.priceLevel = some lvl →
        (inPrice uiMinPrice uiMaxPrice p = true ↔
          (∀ lo, uiMinPrice = some lo → lo ≤ lvl) ∧
            (∀ hi, uiMaxPrice = some hi → lvl ≤ hi))) ∧
      withinPrice uiMinPrice uiMaxPrice p = inPrice uiMinPrice uiMaxPrice p := by
  refine ⟨?_, ?_, rfl⟩
  · intro hnone
    unfold inPrice
    rw [hnone]
    simp
  · intro lvl hlvl
    unfold inPrice
    rw [hlvl]
    cases uiMinPrice with
    | none => cases uiMaxPrice with
      | none => simp
      | some hi => simp
    | some lo => cases uiMaxPrice with
      | none => simp
      | some hi => simp

/-- Witness for C6: with min bound set to 1 and max unset, a result lacking
price data is rejected, per `c6_price_filter` applied at that input. -/
theorem c6_price_filter_witness :
    ((⟨⟨"p1", some 1, some 1, "A", none, none⟩, 100, 0, ⟨[]⟩⟩ :
        DetourOption).place.priceLevel = none) ∧
      (inPrice (some 1) none ⟨⟨"p1", some 1, some 1, "A", none, none⟩, 100, 0, ⟨[]⟩⟩ = true ↔
        (some 1 : Option ℤ) = none ∧ (none : Option ℤ) = none) := by
  refine ⟨rfl, ?_⟩
  exact (c6_price_filter (some 1) none _).1 rfl

/-- C5: after each streaming completion and in the derived filtered view, the
published list is sorted by `(addedTimeSec ascending, totalTimeSec
ascending)`, and it is exactly a permutation of the (filtered) accumulated
results — no other ordering criterion is applied. -/
theorem c5_ordering (uiCuisine : String) (uiMinPrice uiMaxPrice : Option ℤ)
    (detourOptions options prev : List DetourOption) :
    List.Sorted detourLE (visibleOptions uiCuisine uiMinPrice uiMaxPrice detourOptions) ∧
      (visibleOptions uiCuisine uiMinPrice uiMaxPrice detourOptions).Perm
        ((detourOptions.filter (matchesCuisine uiCuisine)).filter
          (inPrice uiMinPrice uiMaxPrice)) ∧
      List.Sorted detourLE (streamMerge options prev) ∧
      (streamMerge options prev).Perm options := by
  refine ⟨?_, ?_, ?_, ?_⟩
  · exact List.sorted_insertionSort detourLE _
  · exact List.perm_insertionSort detourLE _
  · exact List.sorted_insertionSort detourLE _
  · exact List.perm_insertionSort detourLE _

/-- C1 (refuted — code bug): the epoch-2 pass has reset the result set to
`[]`, yet the stale epoch-1 completion's update publishes the epoch-1
result: `fetchOption` checks no generation counter before mutating, so
results produced under epoch 1 appear in the epoch-2 result set. -/
theorem c1_stale_pass_pollutes_new_epoch :
    streamMerge [epoch1Result] resetDetourOptions = [epoch1Result] ∧
      epoch1Result ∈ streamMerge [epoch1Result] resetDetourOptions := by
  constructor
  · rfl
  · simp [streamMerge, sortByKey]

/-- A place whose latitude or longitude is exactly `0` fails the truthiness
guard even though its coordinates are present. -/
theorem coordGuard_eq_none_of_zero (p : Place)
    (h : p.latOpt = some 0 ∨ p.lngOpt = some 0) : coordGuard p = none := by
  rcases h with h | h
  · cases hl : p.lngOpt with
    | none => simp [coordGuard, h, hl]
    | some lng => simp [coordGuard, h, hl]
  · cases hl : p.latOpt with
    | none => simp [coordGuard, h, hl]
    | some lat => simp [coordGuard, h, hl]

/-- C10: the `!lat || !lng` truthiness guards treat a coordinate equal to `0`
as missing, so a POI lying exactly on the equator (`lat = 0`) or the prime
meridian (`lng = 0`) is silently excluded from the corridor-filtered set and
from candidate selection, whatever the corridor width and its actual
distance to the route. -/
theorem c10_zero_coordinate_excluded (dist : ℚ → ℚ → WithTop ℚ)
    (proj : ℚ → ℚ → ℚ × ℚ) (corridorKm : ℚ) (places onRoute : List Place)
    (p : Place) (hzero : p.latOpt = some 0 ∨ p.lngOpt = some 0) :
    p ∉ corridorFilter dist corridorKm places ∧
      p ∉ selectCandidates proj onRoute := by
  constructor
  · intro hmem
    have hpred := List.of_mem_filter hmem
    rw [coordGuard_eq_none_of_zero p hzero] at hpred
    exact absurd hpred (by simp)
  · intro hmem
    rw [selectCandidates] at hmem
    rcases List.mem_map.mp hmem with ⟨x, hx, hx1⟩
    have hx2 : x ∈ (onRoute.filterMap fun p =>
        match coordGuard p with
        | some (lat, lng) => some (p, (proj lat lng).2)
        | none => none) :=
      (List.perm_insertionSort offLE _).subset (List.take_subset 30 _ hx)
    rcases List.mem_filterMap.mp hx2 with ⟨q, _, hq⟩
    cases hg : coordGuard q with
    | none => rw [hg] at hq; exact absurd hq (by simp)
    | some ll =>
        rw [hg] at hq
        obtain ⟨lat, lng⟩ := ll
        simp only [Option.some.injEq] at hq
        have hpq : q = p := by rw [← hx1, ← hq]
        rw [hpq, coordGuard_eq_none_of_zero p hzero] at hg
        exact absurd hg (by simp)

/-- Witness for C10: a POI on the equator (`lat = 0`) with a valid longitude
is excluded from both the corridor filter (even at distance `0`) and the
candidate selection, by `c10_zero_coordinate_excluded` at that input. -/
theorem c10_zero_coordinate_excluded_witness :
    ((⟨"equator-poi", some 0, some 10, "Zero Cafe", none, none⟩ : Place).latOpt = some 0 ∨
        (⟨"equator-poi", some 0, some 10, "Zero Cafe", none, none⟩ : Place).lngOpt = some 0) ∧
      ((⟨"equator-poi", some 0, some 10, "Zero Cafe", none, none⟩ : Place) ∉
          corridorFilter (fun _ _ => (0 : WithTop ℚ)) 5
            [⟨"equator-poi", some 0, some 10, "Zero Cafe", none, none⟩] ∧
        (⟨"equator-poi", some 0, some 10, "Zero Cafe", none, none⟩ : Place) ∉
          selectCandidates (fun _ _ => (0, 0))
            [⟨"equator-poi", some 0, some 10, "Zero Cafe", none, none⟩]) := by
  refine ⟨Or.inl rfl, ?_⟩
  exact c10_zero_coordinate_excluded (fun _ _ => (0 : WithTop ℚ)) (fun _ _ => (0, 0)) 5
    [⟨"equator-poi", some 0, some 10, "Zero Cafe", none, none⟩]
    [⟨"equator-poi", some 0, some 10, "Zero Cafe", none, none⟩]
    ⟨"equator-poi", some 0, some 10, "Zero Cafe", none, none⟩ (Or.inl rfl)

/-- C2 (counterexample): the result-set accumulation is `options.push`, a
plain append — scoring the same POI id a second time yields two entries with
that id rather than replacing the first, so the result set does not behave
as a mapping keyed on POI id under rescoring. -/
theorem c2_rescore_appends_duplicate :
    (pushOption (pushOption [] dupScore1) dupScore2).map (fun o => o.place.pid) =
        ["dup-poi", "dup-poi"] ∧
      ¬ ((pushOption (pushOption [] dupScore1) dupScore2).map
          (fun o => o.place.pid)).Nodup := by
  constructor
  · rfl
  · intro h
    have := List.Nodup.sublist (List.Sublist.refl _) h
    rw [show (pushOption (pushOption [] dupScore1) dupScore2).map
        (fun o => o.place.pid) = ["dup-poi", "dup-poi"] from rfl] at this
    simp at this

/-- If `f` always produces an element mapped (by `g`) to the same key as its
source (by `h`), then the keys of `l.filterMap f` form a sublist of the keys
of `l`. -/
theorem map_filterMap_sublist {α β γ : Type} (f : α → Option β) (g : β → γ)
    (h : α → γ) (hf : ∀ a b, f a = some b → g b = h a) :
    ∀ l : List α, List.Sublist ((l.filterMap f).map g) (l.map h) := by
  intro l
  induction l with
  | nil => simp
  | cons a t ih =>
      rw [List.filterMap_cons, List.map_cons]
      cases hfa : f a with
      | none => exact ih.trans (List.sublist_cons_self _ _)
      | some b =>
          rw [List.map_cons, hf a b hfa]
          exact ih.cons₂ (h a)

/-- C2 (amended): provided the accumulated result set and the discovered
place pool each carry pairwise-distinct POI ids (as the dedupe aggregator
guarantees), the `loadMorePlaces` pipeline keeps ids unique: it only ever
scores places whose id is not yet in the result set, so the merged, re-sorted
result set still holds each POI id at most once — by exclusion of rescoring,
not by keyed replacement. -/
theorem c2_loadMore_ids_unique (dist : ℚ → ℚ → WithTop ℚ) (corridorKm : ℚ)
    (proj : ℚ → ℚ → ℚ × ℚ) (routesOf : Place → List Route)
    (baseRouteTimeSec : ℤ) (allPlaces : List Place)
    (detourOptions : List DetourOption)
    (hd : (detourOptions.map fun o => o.place.pid).Nodup)
    (ha : (allPlaces.map Place.pid).Nodup) :
    ((loadMorePipeline dist corridorKm proj routesOf baseRouteTimeSec allPlaces
        detourOptions).map fun o => o.place.pid).Nodup := by
  classical
  set unproc := unprocessedPlaces allPlaces detourOptions with hunproc
  set inCorr := corridorFilter dist corridorKm unproc with hinCorr
  -- ids of the unprocessed pool: a sublist of the pool's ids, disjoint from
  -- the processed ids
  have hunproc_sub : List.Sublist (unproc.map Place.pid) (allPlaces.map Place.pid) :=
    (List.filter_sublist _).map Place.pid
  have hunproc_nodup : (unproc.map Place.pid).Nodup :=
    hunproc_sub.nodup ha
  have hunproc_fresh : ∀ q ∈ unproc, q.pid ∉ processedPlaceIds detourOptions := by
    intro q hq
    have := List.of_mem_filter hq
    exact of_decide_eq_true this
  have hinCorr_sub : List.Sublist (inCorr.map Place.pid) (unproc.map Place.pid) :=
    (List.filter_sublist _).map Place.pid
  have hinCorr_nodup : (inCorr.map Place.pid).Nodup := hinCorr_sub.nodup hunproc_nodup
  -- ids of the offset-sorted list: a permutation of a sublist of `inCorr`'s ids
  have hpairs_sub : (((inCorr.filterMap fun p =>
      match coordGuard p with
      | some (lat, lng) => some (p, (proj lat lng).2)
      | none => none)).map fun x => x.1.pid).Sublist (inCorr.map Place.pid) := by
    apply map_filterMap_sublist
    intro a b hab
    cases hg : coordGuard a with
    | none => rw [hg] at hab; exact absurd hab (by simp)
    | some ll =>
        rw [hg] at hab
        obtain ⟨lat, lng⟩ := ll
        simp only [Option.some.injEq] at hab
        rw [← hab]
  have hsorted_perm : ((sortedUnprocessed proj inCorr).map Place.pid).Perm
      (((inCorr.filterMap fun p =>
        match coordGuard p with
        | some (lat, lng) => some (p, (proj lat lng).2)
        | none => none)).map fun x => x.1.pid) := by
    rw [sortedUnprocessed, List.map_map]
    exact (List.perm_insertionSort offLE _).map _
  have hsorted_nodup : ((sortedUnprocessed proj inCorr).map Place.pid).Nodup :=
    hsorted_perm.nodup_iff.mpr (hpairs_sub.nodup hinCorr_nodup)
  have hsorted_mem : ∀ x ∈ (sortedUnprocessed proj inCorr).map Place.pid,
      x ∈ inCorr.map Place.pid := fun x hx =>
    hpairs_sub.subset (hsorted_perm.subset hx)
  -- ids of the ten freshly scored options
  have htake_sub : (((sortedUnprocessed proj inCorr).take 10).map Place.pid).Sublist
      ((sortedUnprocessed proj inCorr).map Place.pid) := by
    rw [List.map_take]
    exact List.take_sublist 10 _
  have hnew_sub : ((((sortedUnprocessed proj inCorr).take 10).filterMap
      (loadMoreScore routesOf baseRouteTimeSec)).map fun o => o.place.pid).Sublist
      (((sortedUnprocessed proj inCorr).take 10).map Place.pid) := by
    apply map_filterMap_sublist
    intro a b hab
    unfold loadMoreScore at hab
    cases hr : (routesOf a).head? with
    | none => rw [hr] at hab; exact absurd hab (by simp)
    | some route =>
        rw [hr] at hab
        simp only [Option.some.injEq] at hab
        rw [← hab]
  have hnew_nodup : ((((sortedUnprocessed proj inCorr).take 10).filterMap
      (loadMoreScore routesOf baseRouteTimeSec)).map fun o => o.place.pid).Nodup :=
    hnew_sub.nodup (htake_sub.nodup hsorted_nodup)
  have hnew_fresh : ∀ x ∈ ((((sortedUnprocessed proj inCorr).take 10).filterMap
      (loadMoreScore routesOf baseRouteTimeSec)).map fun o => o.place.pid),
      x ∉ processedPlaceIds detourOptions := by
    intro x hx
    have hx1 : x ∈ inCorr.map Place.pid :=
      hsorted_mem x (htake_sub.subset (hnew_sub.subset hx))
    have hx2 : x ∈ unproc.map Place.pid := hinCorr_sub.subset hx1
    rcases List.mem_map.mp hx2 with ⟨q, hq, rfl⟩
    exact hunproc_fresh q hq
  -- merge and final sort preserve id uniqueness
  have happend : ((detourOptions ++ (((sortedUnprocessed proj inCorr).take 10).filterMap
      (loadMoreScore routesOf baseRouteTimeSec))).map fun o => o.place.pid).Nodup := by
    rw [List.map_append]
    rw [List.nodup_append]
    refine ⟨hd, hnew_nodup, ?_⟩
    intro a haIn haNew
    exact hnew_fresh a haNew haIn
  have hperm : ((loadMorePipeline dist corridorKm proj routesOf baseRouteTimeSec
      allPlaces detourOptions).map fun o => o.place.pid).Perm
      ((detourOptions ++ (((sortedUnprocessed proj inCorr).take 10).filterMap
        (loadMoreScore routesOf baseRouteTimeSec))).map fun o => o.place.pid) :=
    (List.perm_insertionSort detourLE _).map _
  exact hperm.nodup_iff.mpr happend

/-- Witness for C2's amended theorem: a one-entry result set for id `a` plus
a pool containing ids `a` and `b`; the pipeline scores only `b` and the
merged result set's ids stay pairwise distinct. -/
theorem c2_loadMore_ids_unique_witness :
    (([dupScore1].map fun o => o.place.pid).Nodup ∧
        ([dupScore1.place, ⟨"b", some 7, some 7, "B", none, none⟩].map Place.pid).Nodup) ∧
      ((loadMorePipeline (fun _ _ => (0 : WithTop ℚ)) 5 (fun _ _ => (0, 0))
          (fun _ => [⟨[⟨900⟩]⟩]) 800
          [dupScore1.place, ⟨"b", some 7, some 7, "B", none, none⟩]
          [dupScore1]).map fun o => o.place.pid).Nodup := by
  refine ⟨⟨by decide, by decide⟩, ?_⟩
  exact c2_loadMore_ids_unique (fun _ _ => (0 : WithTop ℚ)) 5 (fun _ _ => (0, 0))
    (fun _ => [⟨[⟨900⟩]⟩]) 800
    [dupScore1.place, ⟨"b", some 7, some 7, "B", none, none⟩] [dupScore1]
    (by decide) (by decide)

theorem aggregateResponses_eq_flatten (responses : List (List Place)) :
    aggregateResponses responses = responses.flatten.foldl dedupeStep [] := by
  suffices h : ∀ (rs : List (List Place)) (m : List (String × Place)),
      rs.foldl (fun m results => results.foldl dedupeStep m) m =
        rs.flatten.foldl dedupeStep m by
    exact h responses []
  intro rs
  induction rs with
  | nil => intro m; rfl
  | cons r t ih =>
      intro m
      rw [List.foldl_cons, ih, List.flatten_cons, List.foldl_append]

theorem dedupe_keys_nodup (l : List Place) :
    ∀ m : List (String × Place), ((m.map Prod.fst).Nodup) →
      (((l.foldl dedupeStep m).map Prod.fst).Nodup) := by
  induction l with
  | nil => intro m hm; exact hm
  | cons p t ih =>
      intro m hm
      rw [List.foldl_cons]
      apply ih
      unfold dedupeStep
      by_cases hc : p.pid ∈ m.map Prod.fst
      · rw [if_pos hc]; exact hm
      · rw [if_neg hc, List.map_append]
        rw [List.nodup_append]
        exact ⟨hm, List.nodup_singleton _, by
          intro a ha hain
          simp only [List.map_cons, List.map_nil, List.mem_singleton] at hain
          exact hc (hain ▸ ha)⟩

theorem dedupe_keys_mono (l : List Place) :
    ∀ (m : List (String × Place)) (k : String), k ∈ m.map Prod.fst →
      k ∈ (l.foldl dedupeStep m).map Prod.fst := by
  induction l with
  | nil => intro m k hk; exact hk
  | cons p t ih =>
      intro m k hk
      rw [List.foldl_cons]
      apply ih
      unfold dedupeStep
      by_cases hc : p.pid ∈ m.map Prod.fst
      · rw [if_pos hc]; exact hk
      · rw [if_neg hc, List.map_append]
        exact List.mem_append_left _ hk

theorem dedupe_keys_complete (l : List Place) :
    ∀ (m : List (String × Place)) (q : Place), q ∈ l →
      q.pid ∈ (l.foldl dedupeStep m).map Prod.fst := by
  induction l with
  | nil => intro m q hq; exact absurd hq (List.not_mem_nil q)
  | cons p t ih =>
      intro m q hq
      rw [List.foldl_cons]
      rcases List.mem_cons.mp hq with rfl | hq
      · apply dedupe_keys_mono
        unfold dedupeStep
        by_cases hc : q.pid ∈ m.map Prod.fst
        · rw [if_pos hc]; exact hc
        · rw [if_neg hc, List.map_append]
          exact List.mem_append_right _ (by simp)
      · exact ih _ q hq

theorem dedupe_entry_key (l : List Place) :
    ∀ m : List (String × Place), (∀ kv ∈ m, Prod.fst kv = (Prod.snd kv).pid) →
      ∀ kv ∈ l.foldl dedupeStep m, Prod.fst kv = (Prod.snd kv).pid := by
  induction l with
  | nil => intro m hm; exact hm
  | cons p t ih =>
      intro m hm
      rw [List.foldl_cons]
      apply ih
      unfold dedupeStep
      by_cases hc : p.pid ∈ m.map Prod.fst
      · rw [if_pos hc]; exact hm
      · rw [if_neg hc]
        intro kv hkv
        rcases List.mem_append.mp hkv with h | h
        · exact hm kv h
        · rcases List.mem_singleton.mp h with rfl
          rfl

theorem dedupe_first_seen (l : List Place) :
    ∀ (m : List (String × Place)) (k : String) (pl : Place),
      (k, pl) ∈ l.foldl dedupeStep m →
      (k, pl) ∈ m ∨ (k ∉ m.map Prod.fst ∧
        l.find? (fun q => decide (q.pid = k)) = some pl) := by
  induction l with
  | nil => intro m k pl h; exact Or.inl h
  | cons p t ih =>
      intro m k pl h
      rw [List.foldl_cons] at h
      rcases ih (dedupeStep m p) k pl h with hin | ⟨hnk, hfind⟩
      · unfold dedupeStep at hin
        by_cases hc : p.pid ∈ m.map Prod.fst
        · rw [if_pos hc] at hin; exact Or.inl hin
        · rw [if_neg hc] at hin
          rcases List.mem_append.mp hin with h1 | h1
          · exact Or.inl h1
          · rcases List.mem_singleton.mp h1 with h2
            have hk : k = p.pid := congrArg Prod.fst h2
            have hp : pl = p := congrArg Prod.snd h2
            refine Or.inr ⟨hk ▸ hc, ?_⟩
            rw [List.find?_cons_of_pos, hp]
            simp [hk]
      · have hkm : k ∉ m.map Prod.fst := by
          intro hkin
          apply hnk
          unfold dedupeStep
          by_cases hc : p.pid ∈ m.map Prod.fst
          · rw [if_pos hc]; exact hkin
          · rw [if_neg hc, List.map_append]
            exact List.mem_append_left _ hkin
        have hkp : k ≠ p.pid := by
          intro hkp
          apply hnk
          unfold dedupeStep
          by_cases hc : p.pid ∈ m.map Prod.fst
          · rw [if_pos hc]; exact hkp ▸ hc
          · rw [if_neg hc, List.map_append]
            exact List.mem_append_right _ (by simp [hkp])
        refine Or.inr ⟨hkm, ?_⟩
        rw [List.find?_cons_of_neg, hfind]
        intro h
        exact hkp (of_decide_eq_true h).symm

/-- C7: across all sample-point responses, the aggregated candidate set
contains each POI id exactly once (pairwise-distinct ids, and every id of
every response is represented), and the record kept for an id is the one
from its first appearance in the concatenated response stream
(first-seen-wins). -/
theorem c7_dedupe_first_seen_wins (responses : List (List Place)) :
    ((sampledPlacesOf responses).map Place.pid).Nodup ∧
      (∀ q ∈ responses.flatten, q.pid ∈ (sampledPlacesOf responses).map Place.pid) ∧
      (∀ p ∈ sampledPlacesOf responses,
        responses.flatten.find? (fun q => decide (q.pid = p.pid)) = some p) := by
  have hkeys : ∀ kv ∈ aggregateResponses responses, Prod.fst kv = (Prod.snd kv).pid := by
    rw [aggregateResponses_eq_flatten]
    exact dedupe_entry_key _ [] (by intro kv hkv; exact absurd hkv (List.not_mem_nil kv))
  have hmapeq : (aggregateResponses responses).map Prod.fst =
      (sampledPlacesOf responses).map Place.pid := by
    rw [sampledPlacesOf, List.map_map]
    exact List.map_congr_left hkeys
  refine ⟨?_, ?_, ?_⟩
  · rw [← hmapeq, aggregateResponses_eq_flatten]
    exact dedupe_keys_nodup _ [] (by simp)
  · intro q hq
    rw [← hmapeq, aggregateResponses_eq_flatten]
    exact dedupe_keys_complete _ [] q hq
  · intro p hp
    rcases List.mem_map.mp hp with ⟨kv, hkv, rfl⟩
    have hk : kv.1 = kv.2.pid := hkeys kv hkv
    have hmem : (kv.1, kv.2) ∈ responses.flatten.foldl dedupeStep [] := by
      rw [← aggregateResponses_eq_flatten]
      exact hkv
    rcases dedupe_first_seen _ [] kv.1 kv.2 hmem with h | ⟨_, hfind⟩
    · exact absurd h (List.not_mem_nil _)
    · rw [← hk]
      exact hfind

/-- Witness for C7: with responses `[[firstSeenX], [secondSeenX, placeY]]`,
the aggregate keeps id `x` once with the first record, per
`c7_dedupe_first_seen_wins` at that input. -/
theorem c7_dedupe_first_seen_wins_witness :
    (firstSeenX ∈ sampledPlacesOf [[firstSeenX], [secondSeenX, placeY]]) ∧
      ([[firstSeenX], [secondSeenX, placeY]].flatten.find?
          (fun q => decide (q.pid = firstSeenX.pid)) = some firstSeenX) := by
  refine ⟨by decide, ?_⟩
  exact (c7_dedupe_first_seen_wins [[firstSeenX], [secondSeenX, placeY]]).2.2
    firstSeenX (by decide)

theorem foldl_min_le_init {α : Type} [LinearOrder α] :
    ∀ (l : List α) (a : α), l.foldl min a ≤ a := by
  intro l
  induction l with
  | nil => intro a; exact le_refl a
  | cons y t ih =>
      intro a
      rw [List.foldl_cons]
      exact (ih (min a y)).trans (min_le_left a y)

theorem foldl_min_le_mem {α : Type} [LinearOrder α] :
    ∀ (l : List α) (a x : α), x ∈ l → l.foldl min a ≤ x := by
  intro l
  induction l with
  | nil => intro a x hx; exact absurd hx (List.not_mem_nil x)
  | cons y t ih =>
      intro a x hx
      rw [List.foldl_cons]
      rcases List.mem_cons.mp hx with rfl | hx
      · exact (foldl_min_le_init t (min a x)).trans (min_le_right a x)
      · exact ih (min a y) x hx

/-- C8: the point-to-polyline offset is the minimum over all consecutive
segments of the per-segment offset — for every polyline with at least two
points it is bounded by the offset to each of its segments, and for
polylines with fewer than two points it is `+∞`. -/
theorem c8_polyline_min_over_segments (segKm : Pt → Pt → Pt → ℚ) (p : Pt)
    (path : List Pt) :
    (path.length < 2 → distanceFromPointToPolylineKm segKm p path = ⊤) ∧
      (∀ i, (h : i + 1 < path.length) →
        distanceFromPointToPolylineKm segKm p path ≤
          ((segKm p path[i] path[i + 1] : ℚ) : WithTop ℚ)) := by
  constructor
  · intro hshort
    rw [distanceFromPointToPolylineKm, if_pos hshort]
  · intro i h
    have hlen : ¬ path.length < 2 := by omega
    rw [distanceFromPointToPolylineKm, if_neg hlen]
    have hzlen : i < (path.zip path.tail).length := by
      rw [List.length_zip, List.length_tail]
      omega
    have hz : (path.zip path.tail)[i] = (path[i], path[i + 1]) := by
      rw [List.getElem_zip]
      congr 1
      exact List.getElem_tail _ _ _
    apply foldl_min_le_mem
    have hmem : (path[i], path[i + 1]) ∈ path.zip path.tail := by
      rw [← hz]
      exact List.getElem_mem hzlen
    exact List.mem_map_of_mem (fun ab => ((segKm p ab.1 ab.2 : ℚ) : WithTop ℚ)) hmem

/-- Witness for C8: on the two-point polyline the distance is bounded by the
single segment's offset, and a one-point polyline yields `+∞`, both by
`c8_polyline_min_over_segments` at concrete inputs. -/
theorem c8_polyline_min_over_segments_witness :
    ((0 : ℕ) + 1 < ([⟨1, 1⟩, ⟨2, 2⟩] : List Pt).length ∧
        distanceFromPointToPolylineKm (fun _ _ _ => 3) ⟨5, 5⟩ [⟨1, 1⟩, ⟨2, 2⟩] ≤
          (((fun (_ _ _ : Pt) => (3 : ℚ)) ⟨5, 5⟩
            ([⟨1, 1⟩, ⟨2, 2⟩] : List Pt)[0] ([⟨1, 1⟩, ⟨2, 2⟩] : List Pt)[1] : ℚ) :
              WithTop ℚ)) ∧
      (([⟨1, 1⟩] : List Pt).length < 2 ∧
        distanceFromPointToPolylineKm (fun _ _ _ => 3) ⟨5, 5⟩ [⟨1, 1⟩] = ⊤) := by
  constructor
  · exact ⟨by decide,
      (c8_polyline_min_over_segments (fun _ _ _ => 3) ⟨5, 5⟩ [⟨1, 1⟩, ⟨2, 2⟩]).2 0
        (by decide)⟩
  · exact ⟨by decide,
      (c8_polyline_min_over_segments (fun _ _ _ => 3) ⟨5, 5⟩ [⟨1, 1⟩]).1 (by decide)⟩

theorem sampleGo_eq_specWalk (hav : Pt → Pt → ℚ) (spacing : ℚ) :
    ∀ (pairs : List (Pt × Pt)) (i : ℕ) (acc : ℚ),
      sampleGo hav spacing i acc pairs =
        specWalk hav spacing (decide (i = 0)) acc pairs := by
  intro pairs
  induction pairs with
  | nil => intro i acc; rfl
  | cons ab rest ih =>
      intro i acc
      obtain ⟨a, b⟩ := ab
      rw [sampleGo, specWalk]
      by_cases hc : spacing ≤ acc + hav a b ∨ i = 0
      · rw [if_pos hc, if_pos (by
          rcases hc with h | h
          · exact Or.inl h
          · exact Or.inr (by simp [h]))]
        rw [ih (i + 1) 0]
        simp
      · rw [if_neg hc, if_neg (by
          intro hc2
          apply hc
          rcases hc2 with h | h
          · exact Or.inl h
          · exact Or.inr (of_decide_eq_true h))]
        rw [ih (i + 1) _]
        simp

/-- C9: the sampler is exactly the spec's walk — accumulate consecutive
segment lengths, emit the run's vertex and reset when the accumulated
length reaches the spacing (and at the very first vertex), always appending
the final polyline vertex — and it starts at the first vertex and ends at
the last one.  It is a plain function of the polyline and spacing, hence
deterministic. -/
theorem c9_sampler_spec (hav : Pt → Pt → ℚ) (spacing : ℚ) (path : List Pt)
    (h : 2 ≤ path.length) :
    sampledCoords hav spacing path = specRouteSamples hav spacing path ∧
      (sampledCoords hav spacing path).head? = path.head? ∧
      (sampledCoords hav spacing path).getLast? = path.getLast? := by
  refine ⟨?_, ?_, ?_⟩
  · rw [sampledCoords, specRouteSamples, sampleGo_eq_specWalk]
    simp
  · match path, h with
    | a :: b :: rest, _ =>
        rw [sampledCoords]
        have hzip : ((a :: b :: rest).zip (a :: b :: rest).tail) =
            (a, b) :: ((b :: rest).zip rest) := rfl
        rw [hzip, sampleGo]
        rw [if_pos (Or.inr rfl)]
        rfl
  · rw [sampledCoords]
    have hne : path ≠ [] := by
      intro hnil
      rw [hnil] at h
      exact absurd h (by decide)
    obtain ⟨v, hv⟩ := Option.ne_none_iff_exists'.mp
      (mt List.getLast?_eq_none_iff.mp hne)
    rw [hv]
    simp

/-- Witness for C9 on a concrete three-vertex polyline with unit segment
lengths and spacing 2: the emitted samples are the first vertex (the `i === 0`
emission), then the accumulated 2 km reach the spacing at the second pair,
then the appended final vertex — matching the spec walk. -/
theorem c9_sampler_spec_witness :
    2 ≤ ([⟨0, 0⟩, ⟨0, 1⟩, ⟨0, 2⟩] : List Pt).length ∧
      (sampledCoords (fun _ _ => 1) 2 [⟨0, 0⟩, ⟨0, 1⟩, ⟨0, 2⟩] =
          specRouteSamples (fun _ _ => 1) 2 [⟨0, 0⟩, ⟨0, 1⟩, ⟨0, 2⟩] ∧
        (sampledCoords (fun _ _ => 1) 2 [⟨0, 0⟩, ⟨0, 1⟩, ⟨0, 2⟩]).head? =
          ([⟨0, 0⟩, ⟨0, 1⟩, ⟨0, 2⟩] : List Pt).head? ∧
        (sampledCoords (fun _ _ => 1) 2 [⟨0, 0⟩, ⟨0, 1⟩, ⟨0, 2⟩]).getLast? =
          ([⟨0, 0⟩, ⟨0, 1⟩, ⟨0, 2⟩] : List Pt).getLast?) := by
  exact ⟨by decide, c9_sampler_spec (fun _ _ => 1) 2 [⟨0, 0⟩, ⟨0, 1⟩, ⟨0, 2⟩] (by decide)⟩

theorem binStep_eq_skip (proj : ℚ → ℚ → ℚ × ℚ) (bs : ℚ)
    (bins : ℕ → Option Cand) (place : Place)
    (hg : coordGuard place = none) :
    binStep proj bs bins place = bins := by
  unfold binStep
  rw [hg]

theorem binStep_eq_apply (proj : ℚ → ℚ → ℚ × ℚ) (bs : ℚ)
    (bins : ℕ → Option Cand) (place : Place) (lat lng : ℚ)
    (hg : coordGuard place = some (lat, lng)) :
    binStep proj bs bins place = binApply proj bs bins place lat lng := by
  unfold binStep
  rw [hg]

theorem binApply_eq_occupy (proj : ℚ → ℚ → ℚ × ℚ) (bs : ℚ)
    (bins : ℕ → Option Cand) (place : Place) (lat lng : ℚ)
    (hb : bins (jsBinIdx (proj lat lng).1 bs) = none) :
    binApply proj bs bins place lat lng =
      Function.update bins (jsBinIdx (proj lat lng).1 bs)
        (some (mkCand proj place lat lng)) := by
  unfold binApply
  rw [hb]

theorem binApply_eq_compete (proj : ℚ → ℚ → ℚ × ℚ) (bs : ℚ)
    (bins : ℕ → Option Cand) (place : Place) (lat lng : ℚ) (current : Cand)
    (hb : bins (jsBinIdx (proj lat lng).1 bs) = some current) :
    binApply proj bs bins place lat lng =
      if (proj lat lng).2 < current.offsetKm then
        Function.update bins (jsBinIdx (proj lat lng).1 bs)
          (some (mkCand proj place lat lng))
      else bins := by
  unfold binApply
  rw [hb]

theorem binStep_cases (proj : ℚ → ℚ → ℚ × ℚ) (bs : ℚ) (bins : ℕ → Option Cand)
    (place : Place) (j : ℕ) :
    binStep proj bs bins place j = bins j ∨
      ∃ lat lng, coordGuard place = some (lat, lng) ∧
        j = jsBinIdx (proj lat lng).1 bs ∧
        binStep proj bs bins place j = some (mkCand proj place lat lng) := by
  cases hg : coordGuard place with
  | none => exact Or.inl (congrFun (binStep_eq_skip proj bs bins place hg) j)
  | some ll =>
      obtain ⟨lat, lng⟩ := ll
      rw [binStep_eq_apply proj bs bins place lat lng hg]
      by_cases hj : j = jsBinIdx (proj lat lng).1 bs
      · cases hb : bins (jsBinIdx (proj lat lng).1 bs) with
        | none =>
            right
            refine ⟨lat, lng, rfl, hj, ?_⟩
            rw [binApply_eq_occupy proj bs bins place lat lng hb, hj]
            exact Function.update_same _ _ _
        | some current =>
            rw [binApply_eq_compete proj bs bins place lat lng current hb]
            by_cases hlt : (proj lat lng).2 < current.offsetKm
            · right
              refine ⟨lat, lng, rfl, hj, ?_⟩
              rw [if_pos hlt, hj]
              exact Function.update_same _ _ _
            · left
              rw [if_neg hlt]
      · cases hb : bins (jsBinIdx (proj lat lng).1 bs) with
        | none =>
            rw [binApply_eq_occupy proj bs bins place lat lng hb]
            exact Or.inl (Function.update_noteq hj _ _)
        | some current =>
            rw [binApply_eq_compete proj bs bins place lat lng current hb]
            by_cases hlt : (proj lat lng).2 < current.offsetKm
            · rw [if_pos hlt]
              exact Or.inl (Function.update_noteq hj _ _)
            · rw [if_neg hlt]
              exact Or.inl rfl

theorem binStep_slot_mono (proj : ℚ → ℚ → ℚ × ℚ) (bs : ℚ)
    (bins : ℕ → Option Cand) (place : Place) (j : ℕ) (c : Cand)
    (h : bins j = some c) :
    ∃ c1, binStep proj bs bins place j = some c1 ∧ c1.offsetKm ≤ c.offsetKm := by
  cases hg : coordGuard place with
  | none =>
      rw [binStep_eq_skip proj bs bins place hg]
      exact ⟨c, h, le_refl _⟩
  | some ll =>
      obtain ⟨lat, lng⟩ := ll
      rw [binStep_eq_apply proj bs bins place lat lng hg]
      by_cases hj : j = jsBinIdx (proj lat lng).1 bs
      · have hb : bins (jsBinIdx (proj lat lng).1 bs) = some c := hj ▸ h
        rw [binApply_eq_compete proj bs bins place lat lng c hb]
        by_cases hlt : (proj lat lng).2 < c.offsetKm
        · rw [if_pos hlt, hj]
          exact ⟨mkCand proj place lat lng, Function.update_same _ _ _, le_of_lt hlt⟩
        · rw [if_neg hlt]
          exact ⟨c, h, le_refl _⟩
      · cases hb : bins (jsBinIdx (proj lat lng).1 bs) with
        | none =>
            rw [binApply_eq_occupy proj bs bins place lat lng hb]
            exact ⟨c, (Function.update_noteq hj _ _).trans h, le_refl _⟩
        | some current =>
            rw [binApply_eq_compete proj bs bins place lat lng current hb]
            by_cases hlt : (proj lat lng).2 < current.offsetKm
            · rw [if_pos hlt]
              exact ⟨c, (Function.update_noteq hj _ _).trans h, le_refl _⟩
            · rw [if_neg hlt]
              exact ⟨c, h, le_refl _⟩

theorem binsFold_occupant (proj : ℚ → ℚ → ℚ × ℚ) (bs : ℚ) :
    ∀ (places : List Place) (bins : ℕ → Option Cand) (j : ℕ) (c : Cand),
      (places.foldl (binStep proj bs) bins) j = some c →
      bins j = some c ∨
        ∃ p ∈ places, ∃ lat lng, coordGuard p = some (lat, lng) ∧
          c = mkCand proj p lat lng ∧ j = jsBinIdx (proj lat lng).1 bs := by
  intro places
  induction places with
  | nil => intro bins j c h; exact Or.inl h
  | cons q t ih =>
      intro bins j c h
      rw [List.foldl_cons] at h
      rcases ih (binStep proj bs bins q) j c h with h1 | ⟨p, hp, lat, lng, hg, hc, hj⟩
      · rcases binStep_cases proj bs bins q j with h2 | ⟨lat, lng, hg, hj, hv⟩
        · exact Or.inl (h2 ▸ h1)
        · right
          refine ⟨q, List.mem_cons_self q t, lat, lng, hg, ?_, hj⟩
          have := hv.symm.trans h1
          exact (Option.some.injEq _ _).mp this |>.symm
      · exact Or.inr ⟨p, List.mem_cons_of_mem q hp, lat, lng, hg, hc, hj⟩

theorem binsFold_mono (proj : ℚ → ℚ → ℚ × ℚ) (bs : ℚ) :
    ∀ (places : List Place) (bins : ℕ → Option Cand) (j : ℕ) (c : Cand),
      bins j = some c →
      ∃ c2, (places.foldl (binStep proj bs) bins) j = some c2 ∧
        c2.offsetKm ≤ c.offsetKm := by
  intro places
  induction places with
  | nil => intro bins j c h; exact ⟨c, h, le_refl _⟩
  | cons q t ih =>
      intro bins j c h
      rw [List.foldl_cons]
      obtain ⟨c1, hc1, hle1⟩ := binStep_slot_mono proj bs bins q j c h
      obtain ⟨c2, hc2, hle2⟩ := ih (binStep proj bs bins q) j c1 hc1
      exact ⟨c2, hc2, hle2.trans hle1⟩

theorem binsFold_min (proj : ℚ → ℚ → ℚ × ℚ) (bs : ℚ) :
    ∀ (places : List Place) (bins : ℕ → Option Cand) (p : Place) (lat lng : ℚ),
      p ∈ places → coordGuard p = some (lat, lng) →
      ∃ c, (places.foldl (binStep proj bs) bins)
          (jsBinIdx (proj lat lng).1 bs) = some c ∧
        c.offsetKm ≤ (proj lat lng).2 := by
  intro places
  induction places with
  | nil => intro bins p lat lng hp _; exact absurd hp (List.not_mem_nil p)
  | cons q t ih =>
      intro bins p lat lng hp hg
      rw [List.foldl_cons]
      rcases List.mem_cons.mp hp with rfl | hp
      · have step : ∃ c1, binStep proj bs bins p (jsBinIdx (proj lat lng).1 bs) =
            some c1 ∧ c1.offsetKm ≤ (proj lat lng).2 := by
          rw [binStep_eq_apply proj bs bins p lat lng hg]
          cases hb : bins (jsBinIdx (proj lat lng).1 bs) with
          | none =>
              rw [binApply_eq_occupy proj bs bins p lat lng hb]
              exact ⟨mkCand proj p lat lng, Function.update_same _ _ _, le_refl _⟩
          | some current =>
              rw [binApply_eq_compete proj bs bins p lat lng current hb]
              by_cases hlt : (proj lat lng).2 < current.offsetKm
              · rw [if_pos hlt]
                exact ⟨mkCand proj p lat lng, Function.update_same _ _ _, le_refl _⟩
              · rw [if_neg hlt]
                exact ⟨current, hb, not_lt.mp hlt⟩
        obtain ⟨c1, hc1, hle1⟩ := step
        obtain ⟨c2, hc2, hle2⟩ := binsFold_mono proj bs t _ _ c1 hc1
        exact ⟨c2, hc2, hle2.trans hle1⟩
      · exact ih (binStep proj bs bins q) p lat lng hp hg

/-- C4: for every filled bin `j` of the first App's binning selector, the
occupant was assigned to exactly bin `min(29, max(0, floor(alongKm /
binSizeKm)))`, it is one of the corridor-filtered POIs (with its projection),
and it has the smallest `offsetKm` among all POIs of that bin; every POI with
truthy coordinates occupies its bin (so each is assigned to its clamped bin);
and since a bin holds at most one occupant, the returned candidate list never
exceeds the cap of 30. -/
theorem c4_binning_selector (proj : ℚ → ℚ → ℚ × ℚ) (totalKm : ℚ)
    (places : List Place) (j : ℕ) (c : Cand)
    (hc : binsFor proj (binSizeKm totalKm) places j = some c) :
    j = jsBinIdx c.alongKm (binSizeKm totalKm) ∧
      (∃ p ∈ places, ∃ lat lng, coordGuard p = some (lat, lng) ∧
        c = mkCand proj p lat lng) ∧
      (∀ p ∈ places, ∀ lat lng, coordGuard p = some (lat, lng) →
        jsBinIdx (proj lat lng).1 (binSizeKm totalKm) = j →
        c.offsetKm ≤ (proj lat lng).2) ∧
      (∀ p ∈ places, ∀ lat lng, coordGuard p = some (lat, lng) →
        ∃ c2, binsFor proj (binSizeKm totalKm) places
          (jsBinIdx (proj lat lng).1 (binSizeKm totalKm)) = some c2) ∧
      (candidatesFirstApp proj (binSizeKm totalKm) places).length ≤ 30 := by
  have hocc := binsFold_occupant proj (binSizeKm totalKm) places (fun _ => none) j c hc
  rcases hocc with h1 | ⟨p, hp, lat, lng, hg, hcand, hj⟩
  · exact absurd h1 (by simp)
  · refine ⟨?_, ⟨p, hp, lat, lng, hg, hcand⟩, ?_, ?_, ?_⟩
    · rw [hcand]
      exact hj
    · intro p2 hp2 lat2 lng2 hg2 hj2
      obtain ⟨c2, hc2, hle2⟩ :=
        binsFold_min proj (binSizeKm totalKm) places (fun _ => none) p2 lat2 lng2 hp2 hg2
      rw [hj2] at hc2
      have : c = c2 := by
        have := hc.symm.trans hc2
        exact (Option.some.injEq _ _).mp this
      rw [this]
      exact hle2
    · intro p2 hp2 lat2 lng2 hg2
      obtain ⟨c2, hc2, _⟩ :=
        binsFold_min proj (binSizeKm totalKm) places (fun _ => none) p2 lat2 lng2 hp2 hg2
      exact ⟨c2, hc2⟩
    · unfold candidatesFirstApp trimCandidates
      by_cases hlen : 30 < (binCandidates proj (binSizeKm totalKm) places).length
      · rw [if_pos hlen, List.length_map, List.length_take]
        exact min_le_left _ _
      · rw [if_neg hlen]
        exact not_lt.mp hlen

/-- Witness for C4: on a 30 km route (`binSizeKm = 1`), `placeA` with
`alongKm = 2`, `offsetKm = 5` lands in bin `2 = min(29, max(0, floor(2/1)))`
and all of `c4_binning_selector`'s conclusions hold there. -/
theorem c4_binning_selector_witness :
    (binsFor projW (binSizeKm 30) [placeA] 2 = some candA) ∧
      ((2 : ℕ) = jsBinIdx candA.alongKm (binSizeKm 30) ∧
        (∃ p ∈ [placeA], ∃ lat lng, coordGuard p = some (lat, lng) ∧
          candA = mkCand projW p lat lng) ∧
        (∀ p ∈ [placeA], ∀ lat lng, coordGuard p = some (lat, lng) →
          jsBinIdx (projW lat lng).1 (binSizeKm 30) = 2 →
          candA.offsetKm ≤ (projW lat lng).2) ∧
        (∀ p ∈ [placeA], ∀ lat lng, coordGuard p = some (lat, lng) →
          ∃ c2, binsFor projW (binSizeKm 30) [placeA]
            (jsBinIdx (projW lat lng).1 (binSizeKm 30)) = some c2) ∧
        (candidatesFirstApp projW (binSizeKm 30) [placeA]).length ≤ 30) := by
  have hg : coordGuard placeA = some (2, 5) := by
    rw [coordGuard]
    norm_num [placeA]
  have hbs : binSizeKm 30 = 1 := by
    rw [binSizeKm, max_eq_right] <;> norm_num
  have hidx : jsBinIdx (projW 2 5).1 (binSizeKm 30) = 2 := by
    rw [projW, hbs, jsBinIdx]
    norm_num
    rfl
  have hc : binsFor projW (binSizeKm 30) [placeA] 2 = some candA := by
    rw [binsFor, List.foldl_cons, List.foldl_nil,
      binStep_eq_apply projW (binSizeKm 30) (fun _ => none) placeA 2 5 hg,
      binApply_eq_occupy projW (binSizeKm 30) (fun _ => none) placeA 2 5 rfl,
      hidx, Function.update_same]
    rfl
  exact ⟨hc, c4_binning_selector projW 30 [placeA] 2 candA hc⟩

end Mapetite
